import Mathlib

/-!
A shallow embedding of `src/main.rs` of the `get-my-history` tool, together
with proofs about its core: the link-header cursor parser (`parse_link`),
the paginated fetch loop (`get_statuses`), the archive loader and the final
merge-and-sort step of `main`.

Modelling conventions:
* `serde_json::Value` is the inductive `Json`; `v[key]` is `Json.index`
  (returning `Json.null` on a missing key or a non-object, as serde does),
  `as_str` is `Json.asStr`, `as_array` is `Json.asArr`.
* Rust `unwrap` panics are modelled by `Option`: a function returns `none`
  exactly where the Rust code would panic.
* Rust `&str` operations are implemented structurally on `List Char`
  (`splitOnChar`, `trimChars`, `replaceAllC` for `str::split`, `str::trim`,
  `String::replace`) so that all definitions evaluate by kernel reduction.
* `Vec::sort_by` is a stable sort; it is modelled by `List.insertionSort`
  with the non-strict comparator `cmp a b ≠ .gt`, which is stable and, for
  the total preorders used here, produces the same output as any stable
  sort.
* The HTTP side of `get_statuses` is abstracted as a pure `World` function
  from (request URL, query parameters) to a `Response`; the `while` loop
  becomes the fuel-indexed recursion `fetchGo`, which also records the
  trace of issued requests.
-/

/-! ### Characters and strings -/

/-- Byte/scalar-value comparison of two characters, as Rust compares the
bytes of UTF-8 strings (on Unicode scalar values the two orders agree). -/
def charCmp (a b : Char) : Ordering :=
  if a.toNat < b.toNat then .lt else if b.toNat < a.toNat then .gt else .eq

/-- Lexicographic comparison of two strings as lists of characters:
Rust's `str::cmp`. -/
def strCmp : List Char → List Char → Ordering
  | [], [] => .eq
  | [], _ :: _ => .lt
  | _ :: _, [] => .gt
  | a :: as, b :: bs =>
    match charCmp a b with
    | .eq => strCmp as bs
    | o => o

/-- Rust `str::split(c)`: splits at every occurrence of `c`, keeping empty
pieces, and yields one (possibly empty) piece even for the empty input. -/
def splitOnChar (c : Char) : List Char → List (List Char)
  | [] => [[]]
  | x :: xs =>
    match splitOnChar c xs with
    | [] => [[x]]
    | y :: ys => if x = c then [] :: y :: ys else (x :: y) :: ys

/-- Rust `str::trim` (the link-header strings handled here are ASCII, so
`Char.isWhitespace` agrees with Rust's Unicode whitespace). -/
def trimChars (l : List Char) : List Char :=
  ((l.dropWhile Char.isWhitespace).reverse.dropWhile Char.isWhitespace).reverse

/-- One fuel-indexed step list of Rust `String::replace(pat, rep)`: replaces
every non-overlapping occurrence of `pat`, scanning left to right.  The fuel
only serves to make the recursion structural; `replaceAllC` supplies enough
fuel for the scan to finish. -/
def replaceAllCAux (pat rep : List Char) : Nat → List Char → List Char
  | 0, l => l
  | _ + 1, [] => []
  | fuel + 1, c :: rest =>
    if pat ≠ [] ∧ pat.isPrefixOf (c :: rest) then
      rep ++ replaceAllCAux pat rep fuel (rest.drop (pat.length - 1))
    else
      c :: replaceAllCAux pat rep fuel rest

/-- Rust `str::contains(pat)` for a literal pattern: `pat` occurs as a
contiguous substring. -/
def containsSub (pat : List Char) : List Char → Bool
  | [] => pat.isEmpty
  | c :: rest => pat.isPrefixOf (c :: rest) || containsSub pat rest

/-- Rust `String::replace(pat, rep)` on character lists. -/
def replaceAllC (s pat rep : List Char) : List Char :=
  replaceAllCAux pat rep s.length s

/-- Rust `s.replace(pat, rep)` on strings: removes (or rewrites) every
occurrence of `pat`, not only a leading one. -/
def rustReplace (s pat rep : String) : String :=
  ⟨replaceAllC s.data pat.data rep.data⟩

/-! ### JSON values (`serde_json::Value`) -/

/-- Model of `serde_json::Value`.  Numbers are irrelevant to this program (only the
string fields `id` and `created_at` are ever inspected), so they are
carried as `Int`. -/
inductive Json where
  | null
  | bool (b : Bool)
  | num (n : Int)
  | str (s : String)
  | arr (xs : List Json)
  | obj (fields : List (String × Json))

/-- Indexing `v[key]` of `serde_json::Value`: the value of the first field named
`key` of an object, and `Null` for a missing key or a non-object. -/
def Json.index (v : Json) (key : String) : Json :=
  match v with
  | .obj fields =>
    match fields.find? (fun f => f.1 = key) with
    | some f => f.2
    | none => .null
  | _ => .null

/-- Rust `Value::as_str`. -/
def Json.asStr : Json → Option String
  | .str s => some s
  | _ => none

/-- Rust `Value::as_array`. -/
def Json.asArr : Json → Option (List Json)
  | .arr xs => some xs
  | _ => none

/-- Field access `v[key].as_str()`: the string content of field `key`. -/
def getStrField (v : Json) (key : String) : Option String :=
  (v.index key).asStr

/-! ### The record comparator and the two sorts of `main` -/

/-- The function `compare_key` from `main.rs` (lines 158–160):
`a[key].as_str().unwrap().cmp(b[key].as_str().unwrap())`.
`none` models the `unwrap` panic on a missing or non-string field. -/
def compare_key (key : String) (a b : Json) : Option Ordering :=
  match getStrField a key, getStrField b key with
  | some x, some y => some (strCmp x.data y.data)
  | _, _ => none

/-- The characters of field `key`, with `""` standing in for the
`unwrap` panic on a missing or non-string field. -/
def fieldChars (j : Json) (key : String) : List Char :=
  ((getStrField j key).getD "").data

/-- Total completion of `compare_key`, used to model the sorts; it agrees
with `compare_key` whenever both fields are present (the panic-free case,
which the safety theorem for the comparator establishes). -/
def cmpKeyD (key : String) (a b : Json) : Ordering :=
  strCmp (fieldChars a key) (fieldChars b key)

/-- The comparator of the final ascending sort on line 199,
`statuses.sort_by(|a, b| compare_key("created_at", a, b))`:
`a` may precede `b` when the comparison is not `Greater`. -/
def leCA (a b : Json) : Prop := cmpKeyD "created_at" a b ≠ Ordering.gt

/-- The comparator of the archive loader's descending sort on line 183,
`statuses.sort_by(|a, b| compare_key("created_at", b, a))`. -/
def geCA (a b : Json) : Prop := cmpKeyD "created_at" b a ≠ Ordering.gt

instance : DecidableRel leCA :=
  fun a b => inferInstanceAs (Decidable (cmpKeyD "created_at" a b ≠ Ordering.gt))

instance : DecidableRel geCA :=
  fun a b => inferInstanceAs (Decidable (cmpKeyD "created_at" b a ≠ Ordering.gt))

/-- Lines 193–199 of `main.rs`: `statuses.extend(fetched)` followed by the
stable sort `statuses.sort_by(|a, b| compare_key("created_at", a, b))`.
`Vec::sort_by` is stable; `insertionSort` with the non-strict comparator
`leCA` is a stable sort, and on the total preorder `leCA` every stable
sort produces the same output. -/
def merge (existing fetched : List Json) : List Json :=
  List.insertionSort leCA (existing ++ fetched)

/-- Lines 178–189 of `main.rs`, applied to the parsed archive value `v`:
`statuses = v.as_array().unwrap().clone()` (panic → `none`), the stable
descending sort `sort_by(|a, b| compare_key("created_at", b, a))`, and
`statuses.first().map(|s| s["id"].as_str().unwrap())` (panic → `none`).
The comparator's own `unwrap` panics are tracked by `compare_key`; the
sort is modelled with the total completion `cmpKeyD`. -/
def load_archive (v : Json) : Option (List Json × Option String) :=
  match v.asArr with
  | none => none
  | some statuses =>
    let sorted := List.insertionSort geCA statuses
    match sorted.head? with
    | none => some (sorted, none)
    | some s =>
      match getStrField s "id" with
      | none => none
      | some i => some (sorted, some i)

/-! ### The link cursor parser -/

/-- The leading `<url>` token of a link segment (lines 92–97):
`split(';').next()`, then `trim`, `strip_prefix('<')`,
`strip_suffix('>')`. -/
def urlToken (part : List Char) : Option (List Char) :=
  match trimChars ((splitOnChar ';' part).headD []) with
  | '<' :: rest => if rest.getLast? = some '>' then some rest.dropLast else none
  | _ => none

/-- The body of `parse_link`'s `for` loop over the comma-separated
segments: a segment containing the `rel="dir"` token whose `<...>` URL is
well formed returns that URL; any other segment is passed over and the
loop continues. -/
def parse_linkGo (rel : List Char) : List (List Char) → Option (List Char)
  | [] => none
  | part :: rest =>
    if containsSub rel part then
      match urlToken part with
      | some u => some u
      | none => parse_linkGo rel rest
    else parse_linkGo rel rest

/-- The parser `parse_link` from `main.rs` (lines 86–104), over the header value's
string content (a header value on which `to_str` fails never reaches the
loop and yields `None`; such values are outside this model's inputs). -/
def parse_link (header dir : String) : Option String :=
  let rel := "rel=\"" ++ dir ++ "\""
  (parse_linkGo rel.data (splitOnChar ',' header.data)).map (fun l => (⟨l⟩ : String))

/-! ### The paginated fetcher -/

/-- An abstract HTTP response: the `error_for_status` success flag, the
`Link` header when present, and the parsed JSON body. -/
structure Response where
  ok : Bool
  link : Option String
  body : Json

/-- The HTTP world: what the server answers to an authenticated GET at a
full URL with given query parameters. -/
def World := String → List (String × String) → Response

/-- The two fatal outcomes of `get_statuses`: `?`-propagated HTTP errors
(`error_for_status`, line 137) and the `expected JSON array` context
error (line 152). -/
inductive FetchError where
  | http
  | schema
deriving DecidableEq

/-- A request issued by the loop: full URL and query parameters. -/
abbrev Req := String × List (String × String)

/-- The `while has_more` loop of `get_statuses` (lines 128–153), with
explicit fuel making the recursion structural.  Returns the trace of
issued requests, together with `none` when the fuel ran out before the
loop finished and otherwise the loop's outcome: the records accumulated
from every page, or the first fatal error.  Mirrors the source order:
the status check, then the link-header lookup for the active direction
with `url = next_url.replace(host, "")` and `params.clear()`, then the
body parse. -/
def fetchGo (host : String) (world : World) (dir : String) :
    Nat → String → List (String × String) → List Json →
    List Req × Option (Except FetchError (List Json))
  | 0, _, _, _ => ([], none)
  | fuel + 1, url, params, acc =>
    let req : Req := (host ++ url, params)
    let resp := world (host ++ url) params
    if resp.ok then
      match resp.link.bind (fun h => parse_link h dir) with
      | some next_url =>
        match resp.body.asArr with
        | some items =>
          let rest := fetchGo host world dir fuel (rustReplace next_url host "") [] (acc ++ items)
          (req :: rest.1, rest.2)
        | none => ([req], some (.error .schema))
      | none =>
        match resp.body.asArr with
        | some items => ([req], some (.ok (acc ++ items)))
        | none => ([req], some (.error .schema))
    else ([req], some (.error .http))

/-- The path `format!("/api/v1/accounts/.../statuses")` of line 114. -/
def statusesPath (account_id : String) : String :=
  "/api/v1/accounts/" ++ account_id ++ "/statuses"

/-- Initial query parameters (lines 115–124): `since_id` exactly when a
resume cursor is given. -/
def initParams (min_id : Option String) : List (String × String) :=
  match min_id with
  | some m => [("since_id", m)]
  | none => []

/-- Traversal direction (lines 120–124): `prev` exactly when a resume
cursor is given, `next` otherwise. -/
def dirOf (min_id : Option String) : String :=
  match min_id with
  | some _ => "prev"
  | none => "next"

/-- The fetcher `get_statuses` (lines 106–156) over an abstract `World`, with fuel. -/
def get_statuses (host account_id : String) (min_id : Option String)
    (world : World) (fuel : Nat) :
    List Req × Option (Except FetchError (List Json)) :=
  fetchGo host world (dirOf min_id) fuel (statusesPath account_id) (initParams min_id) []

/-! ### Derived views of the loop, used to state its properties -/

/-- The loop state: relative URL and current query parameters. -/
abbrev St := String × List (String × String)

/-- The response the world gives to the request issued from state `s`. -/
def respAt (host : String) (world : World) (s : St) : Response :=
  world (host ++ s.1) s.2

/-- The successor state: follow the active-direction link of the
response, strip the host with `String::replace` and clear the query
parameters; `none` when the response has no matching link. -/
def nextState (host : String) (world : World) (dir : String) (s : St) : Option St :=
  match (respAt host world s).link.bind (fun h => parse_link h dir) with
  | some u => some (rustReplace u host "", [])
  | none => none

/-- Iteration of `nextState`, `k` times. -/
def iterState (host : String) (world : World) (dir : String) : St → Nat → Option St
  | s, 0 => some s
  | s, k + 1 =>
    match nextState host world dir s with
    | some t => iterState host world dir t k
    | none => none

/-- A page is processed without a fatal error: success status and an
array body. -/
def pageOk (host : String) (world : World) (s : St) : Bool :=
  (respAt host world s).ok && (respAt host world s).body.asArr.isSome

/-- The records of the page fetched `k` steps into the run started at
`s`. -/
def pageBody (host : String) (world : World) (dir : String) (s : St) (k : Nat) : List Json :=
  match iterState host world dir s k with
  | some t => ((respAt host world t).body.asArr).getD []
  | none => []

/-- All records of pages `0..n` of the run started at `s`. -/
def pagesFlat (host : String) (world : World) (dir : String) (s : St) (n : Nat) : List Json :=
  ((List.range (n + 1)).map (pageBody host world dir s)).flatten

/-- One link-following step between consecutive requests of the trace:
the earlier response carries a link header whose active-direction URL,
after host stripping, becomes the next request's URL, with cleared query
parameters. -/
def followStep (host : String) (world : World) (dir : String) (r r' : Req) : Prop :=
  ∃ h u, (world r.1 r.2).link = some h ∧ parse_link h dir = some u ∧
    r' = (host ++ rustReplace u host "", [])

/-! ### Concrete records and worlds used in witnesses -/

/-- A concrete record: id 100, the oldest timestamp. -/
def rec100 : Json := .obj [("id", .str "100"), ("created_at", .str "2024-01-01T00:00:00Z")]

/-- A concrete record: id 101. -/
def rec101 : Json := .obj [("id", .str "101"), ("created_at", .str "2024-01-02T00:00:00Z")]

/-- A concrete record: id 102, the newest timestamp. -/
def rec102 : Json := .obj [("id", .str "102"), ("created_at", .str "2024-01-03T00:00:00Z")]

/-- A concrete record whose id collides with itself when duplicated. -/
def recDup : Json := .obj [("id", .str "7"), ("created_at", .str "2024-05-05T00:00:00Z")]

/-- A two-page world: the first response answers the resuming request
(`since_id = 100`) and carries both a `prev` and a `next` link; the
second page carries no link. -/
def wBoth : World := fun url params =>
  if url = "h/api/v1/accounts/me/statuses" ∧ params = [("since_id", "100")] then
    ⟨true, some "<h/page2>; rel=\"prev\", <h/page0>; rel=\"next\"", .arr [rec101]⟩
  else if url = "h/page2" ∧ params = [] then
    ⟨true, none, .arr [rec102]⟩
  else
    ⟨false, none, .null⟩

/-- A world whose second page fails `error_for_status`. -/
def wErr : World := fun url params =>
  if url = "h/api/v1/accounts/me/statuses" ∧ params = [("since_id", "100")] then
    ⟨true, some "<h/page2>; rel=\"prev\"", .arr [rec101]⟩
  else
    ⟨false, none, .null⟩

/-! ### Order properties of the comparator -/

theorem charCmp_self (a : Char) : charCmp a a = .eq := by
  simp [charCmp]

theorem charCmp_swap (a b : Char) : charCmp b a = (charCmp a b).swap := by
  unfold charCmp
  split_ifs <;> first | rfl | omega

theorem charCmp_eq_lt {a b : Char} : charCmp a b = .lt ↔ a.toNat < b.toNat := by
  unfold charCmp
  split_ifs with h1 h2 <;> simp <;> omega

theorem charCmp_eq_eq {a b : Char} : charCmp a b = .eq ↔ a.toNat = b.toNat := by
  unfold charCmp
  split_ifs with h1 h2 <;> simp <;> omega

theorem strCmp_cons_lt {a b : Char} {as bs : List Char} (h : charCmp a b = .lt) :
    strCmp (a :: as) (b :: bs) = .lt := by
  simp only [strCmp, h]

theorem strCmp_cons_gt {a b : Char} {as bs : List Char} (h : charCmp a b = .gt) :
    strCmp (a :: as) (b :: bs) = .gt := by
  simp only [strCmp, h]

theorem strCmp_cons_eq {a b : Char} {as bs : List Char} (h : charCmp a b = .eq) :
    strCmp (a :: as) (b :: bs) = strCmp as bs := by
  simp only [strCmp, h]

theorem strCmp_self (x : List Char) : strCmp x x = .eq := by
  induction x with
  | nil => rfl
  | cons a as ih => rw [strCmp_cons_eq (charCmp_self a)]; exact ih

theorem strCmp_swap (x y : List Char) : strCmp y x = (strCmp x y).swap := by
  induction x generalizing y with
  | nil => cases y <;> rfl
  | cons a as ih =>
    cases y with
    | nil => rfl
    | cons b bs =>
      cases hab : charCmp a b with
      | lt =>
        have hba : charCmp b a = .gt := by rw [charCmp_swap, hab]; rfl
        rw [strCmp_cons_gt hba, strCmp_cons_lt hab]; rfl
      | gt =>
        have hba : charCmp b a = .lt := by rw [charCmp_swap, hab]; rfl
        rw [strCmp_cons_lt hba, strCmp_cons_gt hab]; rfl
      | eq =>
        have hba : charCmp b a = .eq := by rw [charCmp_swap, hab]; rfl
        rw [strCmp_cons_eq hba, strCmp_cons_eq hab]
        exact ih bs

theorem strCmp_le_trans : ∀ {x y z : List Char},
    strCmp x y ≠ .gt → strCmp y z ≠ .gt → strCmp x z ≠ .gt
  | [], _, z, _, _ => by cases z <;> simp [strCmp]
  | a :: as, [], _, h1, _ => by simp [strCmp] at h1
  | _ :: _, _ :: _, [], _, h2 => by simp [strCmp] at h2
  | a :: as, b :: bs, c :: cs, h1, h2 => by
    cases hab : charCmp a b with
    | gt => rw [strCmp_cons_gt hab] at h1; exact absurd rfl h1
    | lt =>
      cases hbc : charCmp b c with
      | gt => rw [strCmp_cons_gt hbc] at h2; exact absurd rfl h2
      | lt =>
        have hac : charCmp a c = .lt :=
          charCmp_eq_lt.mpr (lt_trans (charCmp_eq_lt.mp hab) (charCmp_eq_lt.mp hbc))
        rw [strCmp_cons_lt hac]; simp
      | eq =>
        have hac : charCmp a c = .lt :=
          charCmp_eq_lt.mpr (charCmp_eq_eq.mp hbc ▸ charCmp_eq_lt.mp hab)
        rw [strCmp_cons_lt hac]; simp
    | eq =>
      rw [strCmp_cons_eq hab] at h1
      cases hbc : charCmp b c with
      | gt => rw [strCmp_cons_gt hbc] at h2; exact absurd rfl h2
      | lt =>
        have hac : charCmp a c = .lt :=
          charCmp_eq_lt.mpr (charCmp_eq_eq.mp hab ▸ charCmp_eq_lt.mp hbc)
        rw [strCmp_cons_lt hac]; simp
      | eq =>
        have hac : charCmp a c = .eq :=
          charCmp_eq_eq.mpr ((charCmp_eq_eq.mp hab).trans (charCmp_eq_eq.mp hbc))
        rw [strCmp_cons_eq hac]
        rw [strCmp_cons_eq hbc] at h2
        exact strCmp_le_trans h1 h2

theorem strCmp_le_total (x y : List Char) : strCmp x y ≠ .gt ∨ strCmp y x ≠ .gt := by
  cases h : strCmp x y with
  | gt => right; rw [strCmp_swap, h]; simp [Ordering.swap]
  | lt => left; simp [h]
  | eq => left; simp [h]

instance : IsTrans Json leCA :=
  ⟨fun _ _ _ h1 h2 => strCmp_le_trans h1 h2⟩

instance : IsTotal Json leCA :=
  ⟨fun a b => strCmp_le_total (fieldChars a "created_at") (fieldChars b "created_at")⟩

instance : IsTrans Json geCA :=
  ⟨fun _ _ _ h1 h2 => strCmp_le_trans h2 h1⟩

instance : IsTotal Json geCA :=
  ⟨fun a b => strCmp_le_total (fieldChars b "created_at") (fieldChars a "created_at")⟩

/-- The comparator `compare_key` agrees with its total completion whenever both fields
are present. -/
theorem compare_key_eq_some {key : String} {a b : Json}
    (ha : (getStrField a key).isSome) (hb : (getStrField b key).isSome) :
    compare_key key a b = some (cmpKeyD key a b) := by
  obtain ⟨x, hx⟩ := Option.isSome_iff_exists.mp ha
  obtain ⟨y, hy⟩ := Option.isSome_iff_exists.mp hb
  simp [compare_key, cmpKeyD, fieldChars, hx, hy]

/-! ### Stability of the stable sort model -/

/-- Insertion sort with the non-strict comparator `leCA` is stable: for
any fixed `created_at` value, the records carrying it appear in the
output in their input order. -/
theorem filter_insertionSort_leCA (c : List Char) (l : List Json) :
    (List.insertionSort leCA l).filter (fun j => fieldChars j "created_at" == c)
      = l.filter (fun j => fieldChars j "created_at" == c) := by
  induction l with
  | nil => rfl
  | cons a l ih =>
    rw [List.insertionSort, List.orderedInsert_eq_take_drop, List.filter_append]
    by_cases hpa : (fieldChars a "created_at" == c) = true
    · have htake : ((List.insertionSort leCA l).takeWhile fun b => decide ¬ leCA a b).filter
          (fun j => fieldChars j "created_at" == c) = [] := by
        rw [List.filter_eq_nil_iff]
        intro b hb
        have hq : ¬ leCA a b := of_decide_eq_true (List.mem_takeWhile_imp (p := fun b => decide ¬ leCA a b) hb)
        have hgt : cmpKeyD "created_at" a b = .gt := not_not.mp hq
        intro hpb
        have hca : fieldChars a "created_at" = c := by simpa using hpa
        have hcb : fieldChars b "created_at" = c := by simpa using hpb
        rw [cmpKeyD, hca, hcb, strCmp_self] at hgt
        exact Ordering.noConfusion hgt
      have htd : ((List.insertionSort leCA l).dropWhile fun b => decide ¬ leCA a b).filter
          (fun j => fieldChars j "created_at" == c)
            = l.filter (fun j => fieldChars j "created_at" == c) := by
        have := List.takeWhile_append_dropWhile (fun b => decide ¬ leCA a b)
          (List.insertionSort leCA l)
        calc ((List.insertionSort leCA l).dropWhile fun b => decide ¬ leCA a b).filter
              (fun j => fieldChars j "created_at" == c)
            = (((List.insertionSort leCA l).takeWhile fun b => decide ¬ leCA a b)
                ++ ((List.insertionSort leCA l).dropWhile fun b => decide ¬ leCA a b)).filter
                (fun j => fieldChars j "created_at" == c) := by
              rw [List.filter_append, htake, List.nil_append]
          _ = _ := by rw [this, ih]
      rw [htake, List.nil_append,
        List.filter_cons_of_pos (p := fun j => fieldChars j "created_at" == c) hpa,
        List.filter_cons_of_pos (p := fun j => fieldChars j "created_at" == c) hpa, htd]
    · have hpa' : ¬ ((fun j => fieldChars j "created_at" == c) a = true) := hpa
      rw [List.filter_cons_of_neg (p := fun j => fieldChars j "created_at" == c) hpa',
        List.filter_cons_of_neg (p := fun j => fieldChars j "created_at" == c) hpa']
      rw [← List.filter_append, List.takeWhile_append_dropWhile, ih]

/-! ### The link parser: first well-formed matching segment -/

/-- The loop of `parse_link` returns the URL of the first segment that
both contains the relation token and carries a well-formed
angle-bracket URL; matching but malformed segments are skipped. -/
theorem parse_linkGo_eq_find (rel : List Char) (parts : List (List Char)) :
    parse_linkGo rel parts =
      (parts.find? (fun p => containsSub rel p && (urlToken p).isSome)).bind urlToken := by
  induction parts with
  | nil => rfl
  | cons part rest ih =>
    rw [parse_linkGo, List.find?_cons]
    by_cases h1 : containsSub rel part
    · cases h2 : urlToken part with
      | some u => simp [h1, h2]
      | none => simp [h1, h2, ih]
    · simp [h1, ih]

/-! ### `String::replace` strips every occurrence, not only a prefix -/

/-- A prefix occurrence is an occurrence: `isPrefixOf` implies `containsSub`. -/
theorem containsSub_of_isPrefixOf {pat l : List Char} (h : pat.isPrefixOf l) :
    containsSub pat l = true := by
  cases l with
  | nil =>
    cases pat with
    | nil => rfl
    | cons p ps => simp [List.isPrefixOf] at h
  | cons c rest => simp [containsSub, h]

/-- A scan that never finds the pattern leaves the string unchanged. -/
theorem replaceAllCAux_of_not_contains {pat rep : List Char} :
    ∀ (fuel : Nat) (l : List Char), containsSub pat l = false →
      replaceAllCAux pat rep fuel l = l := by
  intro fuel
  induction fuel with
  | zero => intro l _; rfl
  | succ fuel ih =>
    intro l hl
    cases l with
    | nil => rfl
    | cons c rest =>
      have hsplit := hl
      rw [containsSub, Bool.or_eq_false_iff] at hsplit
      rw [replaceAllCAux, if_neg, ih rest hsplit.2]
      intro hcond
      rw [hsplit.1] at hcond
      exact Bool.noConfusion hcond.2

/-- Replacing a leading occurrence of `pat` by the empty string, when
`pat` does not occur in the remainder, leaves exactly the remainder. -/
theorem replaceAllC_strips {pat rest : List Char} (hne : pat ≠ [])
    (hni : containsSub pat rest = false) :
    replaceAllC (pat ++ rest) pat [] = rest := by
  cases pat with
  | nil => exact absurd rfl hne
  | cons p ps =>
    have hpre : (p :: ps).isPrefixOf ((p :: ps) ++ rest) = true :=
      List.isPrefixOf_iff_prefix.mpr (List.prefix_append _ _)
    show replaceAllCAux (p :: ps) [] ((p :: ps) ++ rest).length ((p :: ps) ++ rest) = rest
    rw [List.cons_append, List.length_cons, replaceAllCAux, if_pos, List.nil_append,
      List.length_cons, Nat.succ_sub_one, List.drop_left]
    · exact replaceAllCAux_of_not_contains _ rest hni
    · exact ⟨List.cons_ne_nil p ps, hpre⟩

/-! ### The fetch loop: one-step equations -/

theorem fetchGo_err_http {host : String} {world : World} {dir url : String}
    {params : List (String × String)} {acc : List Json} {fuel : Nat}
    (hok : (world (host ++ url) params).ok = false) :
    fetchGo host world dir (fuel + 1) url params acc =
      ([(host ++ url, params)], some (.error .http)) := by
  simp [fetchGo, hok]

theorem fetchGo_err_schema {host : String} {world : World} {dir url : String}
    {params : List (String × String)} {acc : List Json} {fuel : Nat}
    (hok : (world (host ++ url) params).ok = true)
    (harr : (world (host ++ url) params).body.asArr = none) :
    fetchGo host world dir (fuel + 1) url params acc =
      ([(host ++ url, params)], some (.error .schema)) := by
  simp only [fetchGo, hok, harr, if_true]
  cases hlink : (world (host ++ url) params).link.bind (fun h => parse_link h dir) <;>
    simp [hlink]

theorem fetchGo_last {host : String} {world : World} {dir url : String}
    {params : List (String × String)} {acc items : List Json} {fuel : Nat}
    (hok : (world (host ++ url) params).ok = true)
    (hlink : (world (host ++ url) params).link.bind (fun h => parse_link h dir) = none)
    (harr : (world (host ++ url) params).body.asArr = some items) :
    fetchGo host world dir (fuel + 1) url params acc =
      ([(host ++ url, params)], some (.ok (acc ++ items))) := by
  simp [fetchGo, hok, hlink, harr]

theorem fetchGo_step {host : String} {world : World} {dir url : String}
    {params : List (String × String)} {acc items : List Json} {fuel : Nat} {u : String}
    (hok : (world (host ++ url) params).ok = true)
    (hlink : (world (host ++ url) params).link.bind (fun h => parse_link h dir) = some u)
    (harr : (world (host ++ url) params).body.asArr = some items) :
    fetchGo host world dir (fuel + 1) url params acc =
      ((host ++ url, params) ::
          (fetchGo host world dir fuel (rustReplace u host "") [] (acc ++ items)).1,
        (fetchGo host world dir fuel (rustReplace u host "") [] (acc ++ items)).2) := by
  simp [fetchGo, hok, hlink, harr]

/-! ### The fetch loop: shape of the request trace -/

theorem fetchGo_trace (host : String) (world : World) (dir : String) :
    ∀ (fuel : Nat) (url : String) (params : List (String × String)) (acc : List Json),
      ((fetchGo host world dir fuel url params acc).1.head? =
        if fuel = 0 then none else some (host ++ url, params))
      ∧ (∀ r ∈ (fetchGo host world dir fuel url params acc).1.tail, r.2 = [])
      ∧ List.Chain' (followStep host world dir) (fetchGo host world dir fuel url params acc).1 := by
  intro fuel
  induction fuel with
  | zero =>
    intro url params acc
    exact ⟨rfl, by simp [fetchGo], by simp [fetchGo]⟩
  | succ fuel ih =>
    intro url params acc
    cases hok : (world (host ++ url) params).ok with
    | false =>
      rw [fetchGo_err_http hok]
      exact ⟨rfl, by simp, List.chain'_singleton _⟩
    | true =>
      cases harr : (world (host ++ url) params).body.asArr with
      | none =>
        rw [fetchGo_err_schema hok harr]
        exact ⟨rfl, by simp, List.chain'_singleton _⟩
      | some items =>
        cases hlink : (world (host ++ url) params).link.bind (fun h => parse_link h dir) with
        | none =>
          rw [fetchGo_last hok hlink harr]
          exact ⟨rfl, by simp, List.chain'_singleton _⟩
        | some u =>
          rw [fetchGo_step hok hlink harr]
          obtain ⟨ihh, iht, ihc⟩ := ih (rustReplace u host "") [] (acc ++ items)
          refine ⟨rfl, ?_, ?_⟩
          · intro r hr
            cases htr : (fetchGo host world dir fuel (rustReplace u host "") [] (acc ++ items)).1 with
            | nil => rw [htr] at hr; cases hr
            | cons r0 rs =>
              rw [htr] at hr ihh
              have hfz : ¬ fuel = 0 := by
                intro h
                rw [h] at ihh
                simp at ihh
              rw [if_neg hfz] at ihh
              have hr0 : r0 = (host ++ rustReplace u host "", []) := by
                simpa using ihh
              rcases List.mem_cons.mp hr with h | h
              · rw [h, hr0]
              · have := iht r
                rw [htr] at this
                exact this h
          · rw [List.chain'_cons']
            refine ⟨?_, ihc⟩
            intro y hy
            obtain ⟨hdr, hl, hp⟩ := Option.bind_eq_some.mp hlink
            have hfz : ¬ fuel = 0 := by
              intro h
              rw [h] at hy
              simp [fetchGo] at hy
            rw [if_neg hfz] at ihh
            rw [ihh] at hy
            have : y = (host ++ rustReplace u host "", []) := by simpa using hy.symm
            exact ⟨hdr, u, hl, hp, this⟩

/-! ### The fetch loop: runs along a chain of pages -/

theorem nextState_link {host : String} {world : World} {dir : String} {s t : St}
    (h : nextState host world dir s = some t) :
    ∃ u, (respAt host world s).link.bind (fun hd => parse_link hd dir) = some u ∧
      t = (rustReplace u host "", []) := by
  rw [nextState] at h
  cases hl : (respAt host world s).link.bind (fun hd => parse_link hd dir) with
  | none => rw [hl] at h; cases h
  | some u =>
    rw [hl] at h
    exact ⟨u, rfl, (Option.some_inj.mp h).symm⟩

theorem nextState_none_link {host : String} {world : World} {dir : String} {s : St}
    (h : nextState host world dir s = none) :
    (respAt host world s).link.bind (fun hd => parse_link hd dir) = none := by
  rw [nextState] at h
  cases hl : (respAt host world s).link.bind (fun hd => parse_link hd dir) with
  | none => rfl
  | some u => rw [hl] at h; cases h

theorem iterState_succ_of_next {host : String} {world : World} {dir : String} {s t : St}
    (h : nextState host world dir s = some t) (k : Nat) :
    iterState host world dir s (k + 1) = iterState host world dir t k := by
  rw [iterState, h]

theorem pageBody_succ_of_next {host : String} {world : World} {dir : String} {s t : St}
    (h : nextState host world dir s = some t) (k : Nat) :
    pageBody host world dir s (k + 1) = pageBody host world dir t k := by
  unfold pageBody
  rw [iterState_succ_of_next h]

theorem pagesFlat_succ_of_next {host : String} {world : World} {dir : String} {s t : St}
    (h : nextState host world dir s = some t) (n : Nat) :
    pagesFlat host world dir s (n + 1) =
      pageBody host world dir s 0 ++ pagesFlat host world dir t n := by
  unfold pagesFlat
  rw [List.range_succ_eq_map, List.map_cons, List.flatten_cons, List.map_map]
  congr 1
  congr 1
  apply List.map_congr_left
  intro k _
  exact pageBody_succ_of_next h k

theorem fetchGo_run_ok (host : String) (world : World) (dir : String) :
    ∀ (n : Nat), ∀ (fuel : Nat) (s : St) (acc : List Json), n < fuel →
      (∀ k, k ≤ n → (iterState host world dir s k).all (pageOk host world) = true) →
      ∀ sn, iterState host world dir s n = some sn →
        nextState host world dir sn = none →
        (fetchGo host world dir fuel s.1 s.2 acc).2 =
            some (.ok (acc ++ pagesFlat host world dir s n))
        ∧ (fetchGo host world dir fuel s.1 s.2 acc).1.length = n + 1 := by
  intro n
  induction n with
  | zero =>
    intro fuel s acc hfuel hok sn hsn hlast
    obtain rfl : s = sn := by simpa [iterState] using hsn
    obtain ⟨fuel, rfl⟩ : ∃ f, fuel = f + 1 := ⟨fuel - 1, by omega⟩
    have h0 := hok 0 (le_refl 0)
    rw [iterState, Option.all_some] at h0
    rw [pageOk, Bool.and_eq_true] at h0
    obtain ⟨items, harr⟩ := Option.isSome_iff_exists.mp h0.2
    have hlink := nextState_none_link hlast
    rw [fetchGo_last h0.1 hlink harr]
    constructor
    · simp [pagesFlat, pageBody, iterState, harr, List.range_succ, List.range_zero]
    · rfl
  | succ n ih =>
    intro fuel s acc hfuel hok sn hsn hlast
    obtain ⟨fuel, rfl⟩ : ∃ f, fuel = f + 1 := ⟨fuel - 1, by omega⟩
    have h0 := hok 0 (Nat.zero_le _)
    rw [iterState, Option.all_some] at h0
    rw [pageOk, Bool.and_eq_true] at h0
    obtain ⟨items, harr⟩ := Option.isSome_iff_exists.mp h0.2
    obtain ⟨t, hns⟩ : ∃ t, nextState host world dir s = some t := by
      rw [iterState] at hsn
      cases h : nextState host world dir s with
      | none => rw [h] at hsn; cases hsn
      | some t => exact ⟨t, rfl⟩
    obtain ⟨u, hlink, ht⟩ := nextState_link hns
    have hshift : ∀ k, k ≤ n →
        (iterState host world dir t k).all (pageOk host world) = true := by
      intro k hk
      have := hok (k + 1) (by omega)
      rw [iterState_succ_of_next hns] at this
      exact this
    have hsn' : iterState host world dir t n = some sn := by
      rw [← iterState_succ_of_next hns]
      exact hsn
    have hrec := ih fuel t (acc ++ items) (by omega) hshift sn hsn' hlast
    have hstep := @fetchGo_step host world dir s.1 s.2 acc items fuel u h0.1 hlink harr
    have ht1 : rustReplace u host "" = t.1 := by rw [ht]
    have ht2 : ([] : List (String × String)) = t.2 := by rw [ht]
    rw [ht1, ht2] at hstep
    rw [hstep]
    constructor
    · rw [hrec.1]
      rw [pagesFlat_succ_of_next hns, ← List.append_assoc]
      congr 2
      simp [pageBody, iterState, harr]
    · simp [hrec.2]

theorem fetchGo_run_err (host : String) (world : World) (dir : String) :
    ∀ (n : Nat), ∀ (fuel : Nat) (s : St) (acc : List Json), n < fuel →
      (∀ k, k < n → (iterState host world dir s k).all (pageOk host world) = true) →
      ∀ sn, iterState host world dir s n = some sn →
        pageOk host world sn = false →
        (fetchGo host world dir fuel s.1 s.2 acc).2 =
          some (.error
            (if (respAt host world sn).ok then FetchError.schema else FetchError.http)) := by
  intro n
  induction n with
  | zero =>
    intro fuel s acc hfuel hok sn hsn hbad
    obtain rfl : s = sn := by simpa [iterState] using hsn
    obtain ⟨fuel, rfl⟩ : ∃ f, fuel = f + 1 := ⟨fuel - 1, by omega⟩
    rw [pageOk] at hbad
    cases hko : (respAt host world s).ok with
    | false =>
      rw [fetchGo_err_http hko]
      simp
    | true =>
      rw [hko, Bool.true_and] at hbad
      have hna' : (respAt host world s).body.asArr = none := by
        cases h : (respAt host world s).body.asArr with
        | none => rfl
        | some xs => rw [h] at hbad; simp at hbad
      rw [fetchGo_err_schema hko hna']
      simp
  | succ n ih =>
    intro fuel s acc hfuel hok sn hsn hbad
    obtain ⟨fuel, rfl⟩ : ∃ f, fuel = f + 1 := ⟨fuel - 1, by omega⟩
    have h0 := hok 0 (Nat.succ_pos n)
    rw [iterState, Option.all_some] at h0
    rw [pageOk, Bool.and_eq_true] at h0
    obtain ⟨items, harr⟩ := Option.isSome_iff_exists.mp h0.2
    obtain ⟨t, hns⟩ : ∃ t, nextState host world dir s = some t := by
      rw [iterState] at hsn
      cases h : nextState host world dir s with
      | none => rw [h] at hsn; cases hsn
      | some t => exact ⟨t, rfl⟩
    obtain ⟨u, hlink, ht⟩ := nextState_link hns
    have hshift : ∀ k, k < n →
        (iterState host world dir t k).all (pageOk host world) = true := by
      intro k hk
      have := hok (k + 1) (by omega)
      rw [iterState_succ_of_next hns] at this
      exact this
    have hsn' : iterState host world dir t n = some sn := by
      rw [← iterState_succ_of_next hns]
      exact hsn
    have hrec := ih fuel t (acc ++ items) (by omega) hshift sn hsn' hbad
    have hstep := @fetchGo_step host world dir s.1 s.2 acc items fuel u h0.1 hlink harr
    have ht1 : rustReplace u host "" = t.1 := by rw [ht]
    have ht2 : ([] : List (String × String)) = t.2 := by rw [ht]
    rw [ht1, ht2] at hstep
    rw [hstep]
    exact hrec

/-! ### C1 — merge output ordering and stability -/

/-- C1: for every pair of inputs whose records carry a string
`created_at` (the panic-free inputs), the output of the merge —
concatenation followed by the final stable sort — is sorted ascending by
lexicographic string comparison of the `created_at` field, and records
with equal `created_at` keep their original relative order, existing
records before fetched ones (the input order of `E ++ F`). -/
theorem merge_sorted_stable (E F : List Json)
    (h : ∀ j ∈ E ++ F, (getStrField j "created_at").isSome) :
    List.Pairwise (fun a b => ∃ x y, getStrField a "created_at" = some x ∧
        getStrField b "created_at" = some y ∧ strCmp x.data y.data ≠ Ordering.gt)
      (merge E F)
    ∧ ∀ c, (merge E F).filter (fun j => fieldChars j "created_at" == c)
        = (E ++ F).filter (fun j => fieldChars j "created_at" == c) := by
  constructor
  · have hs := List.sorted_insertionSort leCA (E ++ F)
    refine List.Pairwise.imp_of_mem ?_ hs
    intro a b ha hb hr
    have ha' := h a ((List.mem_insertionSort leCA).mp ha)
    have hb' := h b ((List.mem_insertionSort leCA).mp hb)
    obtain ⟨x, hx⟩ := Option.isSome_iff_exists.mp ha'
    obtain ⟨y, hy⟩ := Option.isSome_iff_exists.mp hb'
    refine ⟨x, y, hx, hy, ?_⟩
    have hgt : cmpKeyD "created_at" a b ≠ .gt := hr
    rw [cmpKeyD, fieldChars, fieldChars, hx, hy] at hgt
    exact hgt
  · intro c
    exact filter_insertionSort_leCA c (E ++ F)

/-- Witness for the merge ordering theorem at a concrete archive and
fetch. -/
theorem merge_sorted_stable_witness :
    (∀ j ∈ [rec101] ++ [rec100, rec102], (getStrField j "created_at").isSome)
    ∧ (List.Pairwise (fun a b => ∃ x y, getStrField a "created_at" = some x ∧
          getStrField b "created_at" = some y ∧ strCmp x.data y.data ≠ Ordering.gt)
        (merge [rec101] [rec100, rec102])
      ∧ ∀ c, (merge [rec101] [rec100, rec102]).filter
            (fun j => fieldChars j "created_at" == c)
          = ([rec101] ++ [rec100, rec102]).filter
            (fun j => fieldChars j "created_at" == c)) :=
  ⟨by decide, merge_sorted_stable [rec101] [rec100, rec102] (by decide)⟩

/-! ### C2 — no loss / no duplication under the disjointness premise -/

/-- C2 as stated is false: with `E = [recDup, recDup]` — the same `id`
twice in the archive — and `F = []`, the premise that every fetched
record is strictly newer than every existing one holds vacuously, yet
two records of the merge output share the id `"7"`. -/
theorem merge_unique_ids_cex :
    (∀ f ∈ ([] : List Json), ∀ e ∈ [recDup, recDup],
        compare_key "created_at" e f = some Ordering.lt)
    ∧ ¬ (((merge [recDup, recDup] []).map (fun j => getStrField j "id")).Nodup) := by
  constructor
  · intro f hf
    cases hf
  · decide

/-- C2 amended: assuming additionally that no `id` occurs twice across
the two inputs, the merge output has exactly `|E| + |F|` records, no two
of which share an `id`. -/
theorem merge_no_loss_unique_ids (E F : List Json)
    (hgt : ∀ f ∈ F, ∀ e ∈ E, compare_key "created_at" e f = some Ordering.lt)
    (hids : ((E ++ F).map (fun j => getStrField j "id")).Nodup) :
    (merge E F).length = E.length + F.length
    ∧ ((merge E F).map (fun j => getStrField j "id")).Nodup := by
  constructor
  · rw [merge, List.length_insertionSort, List.length_append]
  · exact (((List.perm_insertionSort leCA (E ++ F)).map
      (fun j => getStrField j "id")).nodup_iff).mpr hids

/-- Witness for the amended C2 at a concrete disjoint archive and
fetch. -/
theorem merge_no_loss_unique_ids_witness :
    ((∀ f ∈ [rec101, rec102], ∀ e ∈ [rec100],
        compare_key "created_at" e f = some Ordering.lt)
      ∧ (([rec100] ++ [rec101, rec102]).map (fun j => getStrField j "id")).Nodup)
    ∧ ((merge [rec100] [rec101, rec102]).length = [rec100].length + [rec101, rec102].length
      ∧ ((merge [rec100] [rec101, rec102]).map (fun j => getStrField j "id")).Nodup) :=
  ⟨⟨by decide, by decide⟩,
    merge_no_loss_unique_ids [rec100] [rec101, rec102] (by decide) (by decide)⟩

/-! ### C3 — cursor presence alone selects the traversal direction -/

/-- C3: the fetcher's behaviour is determined by cursor presence alone:
the first request goes to the statuses path and carries
`since_id = cursor` exactly when the cursor is present (and no query
parameter otherwise); every later request has cleared query parameters;
and consecutive requests are linked exactly by `parse_link _ "prev"`
(cursor present) or `parse_link _ "next"` (cursor absent) applied to the
previous response's link header — so a response carrying both relations
can only have its active relation followed. -/
theorem get_statuses_direction (host account_id : String) (min_id : Option String)
    (world : World) (fuel : Nat) (hfuel : 0 < fuel) :
    (get_statuses host account_id min_id world fuel).1.head? =
        some (host ++ statusesPath account_id, initParams min_id)
    ∧ (∀ r ∈ (get_statuses host account_id min_id world fuel).1.tail, r.2 = [])
    ∧ List.Chain' (followStep host world (dirOf min_id))
        (get_statuses host account_id min_id world fuel).1 := by
  obtain ⟨h1, h2, h3⟩ := fetchGo_trace host world (dirOf min_id) fuel
    (statusesPath account_id) (initParams min_id) []
  refine ⟨?_, h2, h3⟩
  rw [get_statuses, h1, if_neg (by omega)]

/-- Witness for the direction theorem: a resuming fetch against a world
whose first response carries both relations; the trace follows the
`prev` one. -/
theorem get_statuses_direction_witness :
    0 < 5
    ∧ ((get_statuses "h" "me" (some "100") wBoth 5).1.head? =
          some ("h" ++ statusesPath "me", initParams (some "100"))
      ∧ (∀ r ∈ (get_statuses "h" "me" (some "100") wBoth 5).1.tail, r.2 = [])
      ∧ List.Chain' (followStep "h" wBoth (dirOf (some "100")))
          (get_statuses "h" "me" (some "100") wBoth 5).1) :=
  ⟨by decide, get_statuses_direction "h" "me" (some "100") wBoth 5 (by decide)⟩

/-! ### C4 — pagination ends exactly at the first link-less response -/

/-- C4: when pages `0..n` are all processed without fatal error and page
`n` is the first with no active-relation link, the fetch succeeds with
the records of all pages `0..n` — the final page's records included even
when that page is non-empty — and the loop issues exactly `n + 1`
requests; this holds for every sufficient fuel, so a finite chain of
linked pages makes the fetch terminate. -/
theorem get_statuses_terminates (host account_id : String) (min_id : Option String)
    (world : World) (n fuel : Nat) (sn : St)
    (hfuel : n < fuel)
    (hok : ∀ k, k ≤ n → (iterState host world (dirOf min_id)
        (statusesPath account_id, initParams min_id) k).all (pageOk host world) = true)
    (hsn : iterState host world (dirOf min_id)
        (statusesPath account_id, initParams min_id) n = some sn)
    (hlast : nextState host world (dirOf min_id) sn = none) :
    (get_statuses host account_id min_id world fuel).2 =
      some (.ok (pagesFlat host world (dirOf min_id)
        (statusesPath account_id, initParams min_id) n))
    ∧ (get_statuses host account_id min_id world fuel).1.length = n + 1 := by
  have h := fetchGo_run_ok host world (dirOf min_id) n fuel
    (statusesPath account_id, initParams min_id) [] hfuel hok sn hsn hlast
  simpa [get_statuses] using h

/-- Witness for the termination theorem on the two-page world: the
second response has no `prev` link, the loop stops after two requests
and returns both pages' records. -/
theorem get_statuses_terminates_witness :
    (1 < 5
      ∧ (∀ k, k ≤ 1 → (iterState "h" wBoth (dirOf (some "100"))
          (statusesPath "me", initParams (some "100")) k).all (pageOk "h" wBoth) = true)
      ∧ iterState "h" wBoth (dirOf (some "100"))
          (statusesPath "me", initParams (some "100")) 1 = some ("/page2", [])
      ∧ nextState "h" wBoth (dirOf (some "100")) ("/page2", []) = none)
    ∧ ((get_statuses "h" "me" (some "100") wBoth 5).2 =
        some (.ok (pagesFlat "h" wBoth (dirOf (some "100"))
          (statusesPath "me", initParams (some "100")) 1))
      ∧ (get_statuses "h" "me" (some "100") wBoth 5).1.length = 1 + 1) :=
  ⟨⟨by decide, by decide, by decide, by decide⟩,
    get_statuses_terminates "h" "me" (some "100") wBoth 1 5 ("/page2", [])
      (by decide) (by decide) (by decide) (by decide)⟩

/-! ### C5 — the archive loader -/

/-- C5: an archive parsed as a JSON array is loaded as a descending
`created_at` sort of its records (a permutation of the input, pairwise
non-ascending under the comparator), with the `id` of the first — most
recent — element as the resume cursor; the empty array loads as the
empty record set with an absent cursor, not an error. -/
theorem load_archive_spec (l statuses : List Json) (cursor : Option String)
    (h : load_archive (Json.arr l) = some (statuses, cursor)) :
    load_archive (Json.arr []) = some ([], none)
    ∧ statuses.Perm l
    ∧ List.Pairwise geCA statuses
    ∧ cursor = statuses.head?.bind (fun s => getStrField s "id") := by
  refine ⟨rfl, ?_⟩
  have h' : (match (List.insertionSort geCA l).head? with
      | none => some (List.insertionSort geCA l, none)
      | some s =>
        match getStrField s "id" with
        | none => none
        | some i => some (List.insertionSort geCA l, some i)) = some (statuses, cursor) := h
  cases hh : (List.insertionSort geCA l).head? with
  | none =>
    rw [hh] at h'
    obtain ⟨hst, hc⟩ := Prod.mk.injEq .. ▸ Option.some_inj.mp h'
    subst hst
    refine ⟨List.perm_insertionSort geCA l, List.sorted_insertionSort geCA l, ?_⟩
    rw [hh, ← hc]
    rfl
  | some s =>
    rw [hh] at h'
    have h2 : (match getStrField s "id" with
        | none => none
        | some i => some (List.insertionSort geCA l, some i)) = some (statuses, cursor) := h'
    cases hid : getStrField s "id" with
    | none => rw [hid] at h2; cases h2
    | some i =>
      rw [hid] at h2
      obtain ⟨hst, hc⟩ := Prod.mk.injEq .. ▸ Option.some_inj.mp h2
      subst hst
      refine ⟨List.perm_insertionSort geCA l, List.sorted_insertionSort geCA l, ?_⟩
      rw [hh, ← hc, Option.some_bind, hid]

/-- Witness for the archive loader theorem at a concrete two-record
archive: the copy is sorted descending and the cursor is the most recent
id, `101`. -/
theorem load_archive_spec_witness :
    (load_archive (Json.arr [rec100, rec101]) = some ([rec101, rec100], some "101"))
    ∧ (load_archive (Json.arr []) = some ([], none)
      ∧ [rec101, rec100].Perm [rec100, rec101]
      ∧ List.Pairwise geCA [rec101, rec100]
      ∧ some "101" = [rec101, rec100].head?.bind (fun s => getStrField s "id")) :=
  ⟨rfl, load_archive_spec [rec100, rec101] [rec101, rec100] (some "101") rfl⟩

/-! ### C6 — any page failure fails the whole fetch -/

/-- C6: if pages before `n` are processed without error and the `n`-th
reachable page has a non-success status or a non-array body, the whole
fetch returns the corresponding error — `http` for a failed status,
`schema` for a non-array body — and in particular no `ok` result: the
records accumulated from the earlier pages are not returned. -/
theorem get_statuses_all_or_nothing (host account_id : String) (min_id : Option String)
    (world : World) (n fuel : Nat) (sn : St)
    (hfuel : n < fuel)
    (hok : ∀ k, k < n → (iterState host world (dirOf min_id)
        (statusesPath account_id, initParams min_id) k).all (pageOk host world) = true)
    (hsn : iterState host world (dirOf min_id)
        (statusesPath account_id, initParams min_id) n = some sn)
    (hbad : pageOk host world sn = false) :
    (get_statuses host account_id min_id world fuel).2 =
      some (.error (if (respAt host world sn).ok then FetchError.schema else FetchError.http))
    ∧ ∀ l, (get_statuses host account_id min_id world fuel).2 ≠ some (.ok l) := by
  have h := fetchGo_run_err host world (dirOf min_id) n fuel
    (statusesPath account_id, initParams min_id) [] hfuel hok sn hsn hbad
  refine ⟨h, ?_⟩
  intro l hl
  exact Except.noConfusion (Option.some_inj.mp (hl.symm.trans h))

/-- Witness for the all-or-nothing theorem: the second page of `wErr`
fails `error_for_status`, so the fetch errors with `http` even though
the first page was fetched. -/
theorem get_statuses_all_or_nothing_witness :
    (1 < 5
      ∧ (∀ k, k < 1 → (iterState "h" wErr (dirOf (some "100"))
          (statusesPath "me", initParams (some "100")) k).all (pageOk "h" wErr) = true)
      ∧ iterState "h" wErr (dirOf (some "100"))
          (statusesPath "me", initParams (some "100")) 1 = some ("/page2", [])
      ∧ pageOk "h" wErr ("/page2", []) = false)
    ∧ ((get_statuses "h" "me" (some "100") wErr 5).2 =
        some (.error (if (respAt "h" wErr ("/page2", [])).ok
          then FetchError.schema else FetchError.http))
      ∧ ∀ l, (get_statuses "h" "me" (some "100") wErr 5).2 ≠ some (.ok l)) :=
  ⟨⟨by decide, by decide, by decide, by decide⟩,
    get_statuses_all_or_nothing "h" "me" (some "100") wErr 1 5 ("/page2", [])
      (by decide) (by decide) (by decide) (by decide)⟩

/-! ### C7 — the merge performs no id-based deduplication -/

/-- C7: for every pair of inputs — shared ids included — the merge output
has exactly `|E| + |F|` records, and the number of records carrying any
given id is the sum of its occurrences in the two inputs; a record whose
id occurs in both inputs therefore appears (at least) twice. -/
theorem merge_no_dedup (E F : List Json) :
    (merge E F).length = E.length + F.length
    ∧ ∀ i : Option String,
        (merge E F).countP (fun j => decide (getStrField j "id" = i))
          = E.countP (fun j => decide (getStrField j "id" = i))
            + F.countP (fun j => decide (getStrField j "id" = i)) := by
  constructor
  · rw [merge, List.length_insertionSort, List.length_append]
  · intro i
    rw [merge, List.Perm.countP_eq _ (List.perm_insertionSort leCA (E ++ F)),
      List.countP_append]

/-! ### C8 — the link parser's failure policy -/

/-- C8 (amended): `parse_link` never errors; it returns the URL of the
FIRST comma-separated segment that both contains the `rel="dir"` token
and carries a well-formed angle-bracket URL; a matching segment whose
URL is malformed is skipped (rather than ending the parse), and the
result is `none` exactly when no segment qualifies. -/
theorem parse_link_first_wellformed (header dir : String) :
    parse_link header dir =
      (((splitOnChar ',' header.data).find?
          (fun p => containsSub ("rel=\"" ++ dir ++ "\"").data p && (urlToken p).isSome)).bind
        urlToken).map (fun l => (⟨l⟩ : String)) := by
  rw [parse_link, parse_linkGo_eq_find]

/-- C8 as stated is false: in the header below the first segment
contains `rel="next"` but no angle-bracket URL, so the claim demands
`none` (and demands that any returned URL come from the first matching
segment), yet `parse_link` skips the malformed segment and returns the
second segment's URL. -/
theorem parse_link_cex :
    (splitOnChar ',' ("lol rel=\"next\", <u>; rel=\"next\"").data).head? =
        some ("lol rel=\"next\"").data
    ∧ containsSub ("rel=\"" ++ "next" ++ "\"").data ("lol rel=\"next\"").data = true
    ∧ urlToken ("lol rel=\"next\"").data = none
    ∧ parse_link "lol rel=\"next\", <u>; rel=\"next\"" "next" = some "u" := by
  refine ⟨?_, ?_, ?_, ?_⟩ <;> decide

/-! ### C9 — host stripping is global substring replacement -/

/-- C9 as stated is false: the configured host is removed by
`String::replace`, which deletes every occurrence, so for a link URL in
which the host string also occurs in the query, prepending the host to
the stored URL does not reproduce the link URL. -/
theorem strip_host_cex :
    rustReplace "http://x/p?u=http://x" "http://x" "" = "/p?u="
    ∧ "http://x" ++ rustReplace "http://x/p?u=http://x" "http://x" "" ≠
        "http://x/p?u=http://x" := by
  refine ⟨?_, ?_⟩ <;> decide

/-- C9 (amended): the host is stripped by global substring replacement
(`String::replace`), not by prefix removal; when the (non-empty) host
occurs exactly once, as the leading prefix — that is, not at all in the
remainder of the link URL — the stored URL is exactly that remainder and
prepending the host reproduces the link URL. -/
theorem strip_host_roundtrip (host rest : String)
    (hne : host.data ≠ []) (hni : containsSub host.data rest.data = false) :
    rustReplace (host ++ rest) host "" = rest
    ∧ host ++ rustReplace (host ++ rest) host "" = host ++ rest := by
  have hd : rustReplace (host ++ rest) host "" = rest := by
    apply String.ext
    show replaceAllC (host ++ rest).data host.data "".data = rest.data
    rw [String.data_append]
    exact replaceAllC_strips hne hni
  exact ⟨hd, by rw [hd]⟩

/-- Witness for the amended C9 on a link URL whose host occurs only as
the leading prefix. -/
theorem strip_host_roundtrip_witness :
    (("http://x").data ≠ [] ∧ containsSub ("http://x").data ("/p?page=2").data = false)
    ∧ (rustReplace ("http://x" ++ "/p?page=2") "http://x" "" = "/p?page=2"
      ∧ "http://x" ++ rustReplace ("http://x" ++ "/p?page=2") "http://x" "" =
          "http://x" ++ "/p?page=2") :=
  ⟨⟨by decide, by decide⟩, strip_host_roundtrip "http://x" "/p?page=2" (by decide) (by decide)⟩

/-! ### C10 — the unchecked field extractions cannot panic on
well-formed records -/

/-- C10: when every record of the archive `A` and of the fetched set `F`
carries string `id` and `created_at` fields, the unchecked extractions
are total: the comparator `compare_key` (used by both the archive's
descending sort and the final ascending sort) is defined on every pair
of records, and the archive loader — including its resume-cursor
extraction `s["id"].as_str().unwrap()` — reaches a result instead of its
panic branches. -/
theorem unchecked_extractions_safe (A F : List Json)
    (h : ∀ j ∈ A ++ F, (getStrField j "id").isSome ∧ (getStrField j "created_at").isSome) :
    (∀ a ∈ A ++ F, ∀ b ∈ A ++ F, (compare_key "created_at" a b).isSome)
    ∧ (load_archive (Json.arr A)).isSome := by
  constructor
  · intro a ha b hb
    rw [compare_key_eq_some (h a ha).2 (h b hb).2]
    rfl
  · have hmatch : load_archive (Json.arr A) =
        (match (List.insertionSort geCA A).head? with
          | none => some (List.insertionSort geCA A, none)
          | some s =>
            match getStrField s "id" with
            | none => none
            | some i => some (List.insertionSort geCA A, some i)) := rfl
    rw [hmatch]
    cases hh : (List.insertionSort geCA A).head? with
    | none => rfl
    | some s =>
      have hs : s ∈ A := (List.mem_insertionSort geCA).mp (List.mem_of_mem_head? hh)
      obtain ⟨i, hi⟩ := Option.isSome_iff_exists.mp (h s (List.mem_append_left F hs)).1
      show (match getStrField s "id" with
        | none => none
        | some i => some (List.insertionSort geCA A, some i)).isSome = true
      rw [hi]
      rfl

/-- Witness for the safety theorem on a concrete well-formed archive and
fetch. -/
theorem unchecked_extractions_safe_witness :
    (∀ j ∈ [rec100] ++ [rec101], (getStrField j "id").isSome
      ∧ (getStrField j "created_at").isSome)
    ∧ ((∀ a ∈ [rec100] ++ [rec101], ∀ b ∈ [rec100] ++ [rec101],
          (compare_key "created_at" a b).isSome)
      ∧ (load_archive (Json.arr [rec100])).isSome) :=
  ⟨by decide, unchecked_extractions_safe [rec100] [rec101] (by decide)⟩
